import Mathlib

/-!
Verification of the SeaHash implementation: the optimized engine
(`src/seahash/src/buffer.rs`) and the reference engine
(`src/seahash/src/reference.rs`), embedded shallowly.  Bytes are `Fin 256`,
64-bit words are `Nat` with explicit `% 2 ^ 64` where the Rust code wraps.
-/

/-- A byte, as stored in the input buffer. -/
abbrev Byte := Fin 256

/-- The little-endian value of a byte sequence: `l[0] + 256*l[1] + 256^2*l[2] + ...`.
This is the numeric value delivered by a little-endian memory read of the bytes. -/
def leBytes (l : List Byte) : Nat :=
  l.foldr (fun b x => b.val + 256 * x) 0

/-- Modelled from the spec: the diffusion primitive lives in the crate root
(`lib.rs`), which is not among the provided sources (`buffer.rs` and
`reference.rs` only import it via `use diffuse;`).  Spec §4.1 and the module
documentation of `reference.rs` define `j(x) = (p * x) mod 2^64` for the fixed
constant `p = 0x7ed0e9fa0d94a33`, with the multiplication wrapping silently. -/
def jmul (x : Nat) : Nat := (0x7ed0e9fa0d94a33 * x) % 2 ^ 64

/-- Modelled from the spec: `h(x) = x >> 32` (unsigned right shift, top 32 bits
moved to the bottom), the shift half of the diffusion primitive of §4.1. -/
def hshift (x : Nat) : Nat := x >>> 32

/-- Modelled from the spec: the diffusion primitive `g(x) = h(j(h(j(x))))`
(spec §4.1 and the `reference.rs` module documentation), four steps in total:
multiply, shift, multiply, shift. -/
def diffuse (x : Nat) : Nat := hshift (jmul (hshift (jmul x)))

namespace reference

/-- `reference.rs::read_int`: read an integer in little-endian, iterating the
bytes in reverse, shifting the accumulator (a `u64`, hence the wrap) up a byte
and OR-ing the lower byte in. -/
def read_int (int : List Byte) : Nat :=
  int.reverse.foldl (fun x i => ((x <<< 8) % 2 ^ 64) ||| i.val) 0

/-- `reference.rs::State`: the state vector and the cursor into it. -/
structure State where
  vec : List Nat
  cur : Nat

/-- `reference.rs::State::write_u64`: XOR the integer into the lane at the
cursor, diffuse that lane, increment the cursor and wrap it around 4. -/
def State.write_u64 (s : State) (x : Nat) : State :=
  { vec := s.vec.set s.cur (diffuse ((s.vec.getD s.cur 0) ^^^ x)),
    cur := (s.cur + 1) % 4 }

/-- `reference.rs::State::finish`: XOR the four lanes and the number of written
bytes together and diffuse. -/
def State.finish (s : State) (total : Nat) : Nat :=
  diffuse (((((s.vec.getD 0 0) ^^^ (s.vec.getD 1 0)) ^^^
    (s.vec.getD 2 0)) ^^^ (s.vec.getD 3 0)) ^^^ total)

/-- `reference.rs::State::with_seed`: the initial state. -/
def State.with_seed (seed : Nat) : State :=
  { vec := [seed, 0xb480a793d8e6c86c, 0x6fe2e5aaf078ebc9, 0x14f994a4c5259381],
    cur := 0 }

end reference

/-- Partition a buffer into consecutive chunks of 8 bytes, the last chunk
possibly shorter (Rust `slice::chunks(8)`); fuelled recursion, the fuel is an
upper bound on the number of chunks so the definition reduces in the kernel. -/
def chunks8Go : Nat → List Byte → List (List Byte)
  | 0, _ => []
  | fuel + 1, l => if l.length = 0 then [] else l.take 8 :: chunks8Go fuel (l.drop 8)

/-- Rust `buf.chunks(8)` as a list of chunks. -/
def chunks8 (l : List Byte) : List (List Byte) := chunks8Go l.length l

namespace reference

/-- The chunk loop of `reference.rs::hash_seeded`: write each chunk's
little-endian value into the state in turn. -/
def writeChunks (s : State) (cs : List (List Byte)) : State :=
  cs.foldl (fun s c => s.write_u64 (read_int c)) s

/-- `reference.rs::hash_seeded`: initialize the state, write every 8-byte chunk
(the last chunk may be shorter), and finish with the buffer length. -/
def hash_seeded (buf : List Byte) (seed : Nat) : Nat :=
  (writeChunks (State.with_seed seed) (chunks8 buf)).finish buf.length

/-- `reference.rs::hash`: hash with the fixed default seed. -/
def hash (buf : List Byte) : Nat := hash_seeded buf 0x16f11fe89b0d677c

end reference

namespace buffer

/-- `buffer.rs::read_int`: read a buffer of fewer than 8 bytes little-endian,
as the source does with one `u8`/`u16`/`u32` read per case, combined by shifts
and ORs; any other length gives 0 (the source's `_` arm). -/
def read_int (buf : List Byte) : Nat :=
  match buf with
  | [b0] => b0.val
  | [b0, b1] => leBytes [b0, b1]
  | [b0, b1, b2] => (leBytes [b0, b1]) ||| (b2.val <<< 16)
  | [b0, b1, b2, b3] => leBytes [b0, b1, b2, b3]
  | [b0, b1, b2, b3, b4] => (leBytes [b0, b1, b2, b3]) ||| (b4.val <<< 32)
  | [b0, b1, b2, b3, b4, b5] =>
      (leBytes [b0, b1, b2, b3]) ||| ((leBytes [b4, b5]) <<< 32)
  | [b0, b1, b2, b3, b4, b5, b6] =>
      ((leBytes [b0, b1, b2, b3]) ||| ((leBytes [b4, b5]) <<< 32)) |||
        (b6.val <<< 48)
  | _ => 0

/-- `buffer.rs::read_u64`, 64-bit target branch: one little-endian `u64` read
of the 8 bytes at the pointer. -/
def read_u64 (l : List Byte) : Nat := leBytes (l.take 8)

/-- `buffer.rs::read_u64`, 32-bit target branch: the source reads the `u32` at
the pointer twice (both dereferences use `ptr`), so the value is
`w | (w << 32)` for `w` the little-endian `u32` at the pointer; offsets 4
through 7 are never read. -/
def read_u64_32bit (l : List Byte) : Nat :=
  (leBytes (l.take 4)) ||| ((leBytes (l.take 4)) <<< 32)

/-- The main loop of `buffer.rs::hash_seeded`: as long as a full 32-byte block
remains, mix the four consecutive little-endian 64-bit reads into lanes
`a`, `b`, `c`, `d` in that order; fuelled so the definition reduces in the
kernel (the fuel is an upper bound on the number of iterations). -/
def loop32Go : Nat → List Byte → Nat → Nat → Nat → Nat →
    Nat × Nat × Nat × Nat × List Byte
  | 0, l, a, b, c, d => (a, b, c, d, l)
  | fuel + 1, l, a, b, c, d =>
    if 32 ≤ l.length then
      loop32Go fuel (l.drop 32)
        (diffuse (a ^^^ read_u64 l))
        (diffuse (b ^^^ read_u64 (l.drop 8)))
        (diffuse (c ^^^ read_u64 (l.drop 16)))
        (diffuse (d ^^^ read_u64 (l.drop 24)))
    else (a, b, c, d, l)

/-- The main loop of `buffer.rs::hash_seeded`, run to completion: returns the
four lanes and the remaining (excessive) bytes. -/
def loop32 (l : List Byte) (a b c d : Nat) : Nat × Nat × Nat × Nat × List Byte :=
  loop32Go l.length l a b c d

/-- The `match excessive` tail of `buffer.rs::hash_seeded`: fold the 0 to 31
excessive bytes into the lanes, full 8-byte reads first, then one short
`read_int` read of the final 1 to 7 bytes. -/
def excessive_fold (rem : List Byte) (a b c d : Nat) : Nat × Nat × Nat × Nat :=
  if rem.length = 0 then (a, b, c, d)
  else if rem.length ≤ 7 then (diffuse (a ^^^ read_int rem), b, c, d)
  else if rem.length = 8 then (diffuse (a ^^^ read_u64 rem), b, c, d)
  else if rem.length ≤ 15 then
    (diffuse (a ^^^ read_u64 rem),
     diffuse (b ^^^ read_int (rem.drop 8)), c, d)
  else if rem.length = 16 then
    (diffuse (a ^^^ read_u64 rem),
     diffuse (b ^^^ read_u64 (rem.drop 8)), c, d)
  else if rem.length ≤ 23 then
    (diffuse (a ^^^ read_u64 rem),
     diffuse (b ^^^ read_u64 (rem.drop 8)),
     diffuse (c ^^^ read_int (rem.drop 16)), d)
  else if rem.length = 24 then
    (diffuse (a ^^^ read_u64 rem),
     diffuse (b ^^^ read_u64 (rem.drop 8)),
     diffuse (c ^^^ read_u64 (rem.drop 16)), d)
  else
    (diffuse (a ^^^ read_u64 rem),
     diffuse (b ^^^ read_u64 (rem.drop 8)),
     diffuse (c ^^^ read_u64 (rem.drop 16)),
     diffuse (d ^^^ read_int (rem.drop 24)))

/-- `buffer.rs::hash_seeded`: seed the four lanes, run the 32-byte main loop,
fold the excessive bytes, XOR the lanes pairwise (`a^b`, `c^d`, then together),
XOR in the buffer length, and diffuse. -/
def hash_seeded (buf : List Byte) (seed : Nat) : Nat :=
  match loop32 buf seed 0xb480a793d8e6c86c 0x6fe2e5aaf078ebc9 0x14f994a4c5259381 with
  | (a, b, c, d, rem) =>
    match excessive_fold rem a b c d with
    | (a, b, c, d) =>
      diffuse (((a ^^^ b) ^^^ (c ^^^ d)) ^^^ buf.length)

/-- `buffer.rs::hash`: hash with the fixed default seed. -/
def hash (buf : List Byte) : Nat := hash_seeded buf 0x16f11fe89b0d677c

end buffer

/-! ### Little-endian reads: `lor` of disjoint parts is addition -/

theorem testBit_add_two_pow_mul {a : Nat} (k b : Nat) (ha : a < 2 ^ k) (i : Nat) :
    (a + 2 ^ k * b).testBit i = if i < k then a.testBit i else b.testBit (i - k) := by
  rcases lt_or_le i k with hik | hik
  · rw [if_pos hik]
    have hk : (2 : Nat) ^ k = 2 ^ i * 2 ^ (k - i) := by
      rw [← pow_add]
      congr 1
      omega
    have hsplit : k - i = (k - i - 1) + 1 := by omega
    rw [Nat.testBit_to_div_mod, Nat.testBit_to_div_mod, hk, Nat.mul_assoc,
      Nat.add_mul_div_left _ _ (Nat.two_pow_pos i), hsplit, pow_succ',
      Nat.mul_assoc, Nat.add_mul_mod_self_left]
  · rw [if_neg (by omega)]
    have hi : (2 : Nat) ^ i = 2 ^ k * 2 ^ (i - k) := by
      rw [← pow_add]
      congr 1
      omega
    rw [Nat.testBit_to_div_mod, Nat.testBit_to_div_mod, hi, ← Nat.div_div_eq_div_mul,
      Nat.add_mul_div_left _ _ (Nat.two_pow_pos k), Nat.div_eq_of_lt ha, Nat.zero_add]

theorem lor_eq_add_shiftLeft {a : Nat} (b k : Nat) (ha : a < 2 ^ k) :
    a ||| (b <<< k) = a + 2 ^ k * b := by
  apply Nat.eq_of_testBit_eq
  intro i
  rw [Nat.testBit_lor, Nat.testBit_shiftLeft, testBit_add_two_pow_mul k b ha i]
  rcases lt_or_le i k with hik | hik
  · have h1 : ¬ k ≤ i := by omega
    simp [h1, hik]
  · have hbit : a.testBit i = false :=
      Nat.testBit_lt_two_pow (lt_of_lt_of_le ha (Nat.pow_le_pow_right (by norm_num) hik))
    have h2 : ¬ i < k := by omega
    simp [hbit, hik, h2]

theorem leBytes_nil : leBytes [] = 0 := rfl

theorem leBytes_cons (b : Byte) (t : List Byte) :
    leBytes (b :: t) = b.val + 256 * leBytes t := rfl

theorem leBytes_lt (l : List Byte) : leBytes l < 2 ^ (8 * l.length) := by
  induction l with
  | nil => simp [leBytes]
  | cons b t ih =>
    rw [leBytes_cons, List.length_cons]
    have hb := b.isLt
    have hpow : (2 : Nat) ^ (8 * (t.length + 1)) = 256 * 2 ^ (8 * t.length) := by
      rw [Nat.mul_add, pow_add]
      ring
    have hmul := Nat.mul_le_mul_left 256 (Nat.succ_le_of_lt ih)
    omega

theorem leBytes_append (l l' : List Byte) :
    leBytes (l ++ l') = leBytes l + 2 ^ (8 * l.length) * leBytes l' := by
  induction l with
  | nil => simp [leBytes]
  | cons b t ih =>
    rw [List.cons_append, leBytes_cons, leBytes_cons, ih, List.length_cons]
    have hpow : (2 : Nat) ^ (8 * (t.length + 1)) = 256 * 2 ^ (8 * t.length) := by
      rw [Nat.mul_add, pow_add]
      ring
    rw [hpow]
    ring

/-! ### The two `read_int`s read the little-endian value -/

theorem foldr_shift_lor_eq (l : List Byte) (h : l.length ≤ 8) :
    l.foldr (fun i x => ((x <<< 8) % 2 ^ 64) ||| i.val) 0 = leBytes l := by
  induction l with
  | nil => rfl
  | cons i t ih =>
    rw [List.foldr_cons, ih (by simp at h; omega), leBytes_cons]
    have ht : t.length ≤ 7 := by simp at h; omega
    have hlt : leBytes t < 2 ^ 56 :=
      lt_of_lt_of_le (leBytes_lt t) (Nat.pow_le_pow_right (by norm_num) (by omega))
    have hsh : (leBytes t) <<< 8 < 2 ^ 64 := by
      rw [Nat.shiftLeft_eq]
      calc leBytes t * 2 ^ 8 < 2 ^ 56 * 2 ^ 8 :=
            (Nat.mul_lt_mul_right (by norm_num)).mpr hlt
        _ = 2 ^ 64 := by norm_num
    rw [Nat.mod_eq_of_lt hsh, Nat.lor_comm, lor_eq_add_shiftLeft (leBytes t) 8 i.isLt]
    norm_num

theorem reference_read_int_eq (l : List Byte) (h : l.length ≤ 8) :
    reference.read_int l = leBytes l := by
  have hrev : reference.read_int l =
      l.foldr (fun i x => ((x <<< 8) % 2 ^ 64) ||| i.val) 0 := by
    simp [reference.read_int, List.foldl_reverse]
  rw [hrev, foldr_shift_lor_eq l h]

theorem buffer_read_int_eq (l : List Byte) (h : l.length ≤ 7) :
    buffer.read_int l = leBytes l := by
  rcases l with _ | ⟨b0, _ | ⟨b1, _ | ⟨b2, _ | ⟨b3, _ | ⟨b4, _ | ⟨b5, _ | ⟨b6, _ | ⟨b7, t⟩⟩⟩⟩⟩⟩⟩⟩
  · rfl
  · simp [buffer.read_int, leBytes]
  · rfl
  · have hb : leBytes [b0, b1] < 2 ^ 16 := by simpa using leBytes_lt [b0, b1]
    simp only [buffer.read_int]
    rw [lor_eq_add_shiftLeft b2.val 16 hb]
    simp [leBytes]
    ring
  · rfl
  · have hb : leBytes [b0, b1, b2, b3] < 2 ^ 32 := by
      simpa using leBytes_lt [b0, b1, b2, b3]
    simp only [buffer.read_int]
    rw [lor_eq_add_shiftLeft b4.val 32 hb]
    simp [leBytes]
    ring
  · have hb : leBytes [b0, b1, b2, b3] < 2 ^ 32 := by
      simpa using leBytes_lt [b0, b1, b2, b3]
    simp only [buffer.read_int]
    rw [lor_eq_add_shiftLeft (leBytes [b4, b5]) 32 hb]
    simp [leBytes]
    ring
  · have hb : leBytes [b0, b1, b2, b3] < 2 ^ 32 := by
      simpa using leBytes_lt [b0, b1, b2, b3]
    have hb2 : leBytes [b4, b5] < 2 ^ 16 := by simpa using leBytes_lt [b4, b5]
    simp only [buffer.read_int]
    rw [lor_eq_add_shiftLeft (leBytes [b4, b5]) 32 hb]
    rw [lor_eq_add_shiftLeft b6.val 48 (by omega)]
    simp [leBytes]
    ring
  · simp at h

/-! ### Characterizations of the fuelled chunk partition and main loop -/

theorem chunks8Go_fuel (fuel fuel' : Nat) (l : List Byte) (h : l.length ≤ fuel)
    (h' : l.length ≤ fuel') : chunks8Go fuel l = chunks8Go fuel' l := by
  induction fuel generalizing fuel' l with
  | zero =>
    have he : l = [] := List.length_eq_zero.mp (by omega)
    subst he
    cases fuel' with
    | zero => rfl
    | succ f' => simp [chunks8Go]
  | succ f ih =>
    cases fuel' with
    | zero =>
      have he : l = [] := List.length_eq_zero.mp (by omega)
      subst he
      simp [chunks8Go]
    | succ f' =>
      by_cases hl : l.length = 0
      · simp [chunks8Go, hl]
      · simp only [chunks8Go, if_neg hl]
        rw [ih f' (l.drop 8) (by simp; omega) (by simp; omega)]

theorem chunks8_nil : chunks8 [] = [] := rfl

theorem chunks8_cons (l : List Byte) (h : l ≠ []) :
    chunks8 l = l.take 8 :: chunks8 (l.drop 8) := by
  have hlen : ¬ l.length = 0 := by simpa using h
  obtain ⟨n, hn⟩ : ∃ n, l.length = n + 1 := ⟨l.length - 1, by omega⟩
  rw [chunks8, hn]
  simp only [chunks8Go, if_neg hlen]
  rw [chunks8]
  rw [chunks8Go_fuel n (l.drop 8).length (l.drop 8) (by simp; omega) (le_refl _)]

theorem chunks8_short (l : List Byte) (h : l ≠ []) (h8 : l.length ≤ 8) :
    chunks8 l = [l] := by
  rw [chunks8_cons l h, List.take_of_length_le h8, List.drop_eq_nil_of_le h8, chunks8_nil]

theorem loop32Go_fuel (fuel fuel' : Nat) (l : List Byte) (a b c d : Nat)
    (h : l.length ≤ fuel) (h' : l.length ≤ fuel') :
    buffer.loop32Go fuel l a b c d = buffer.loop32Go fuel' l a b c d := by
  induction fuel generalizing fuel' l a b c d with
  | zero =>
    have he : l = [] := List.length_eq_zero.mp (by omega)
    subst he
    cases fuel' with
    | zero => rfl
    | succ f' => simp [buffer.loop32Go]
  | succ f ih =>
    cases fuel' with
    | zero =>
      have he : l = [] := List.length_eq_zero.mp (by omega)
      subst he
      simp [buffer.loop32Go]
    | succ f' =>
      by_cases h32 : 32 ≤ l.length
      · simp only [buffer.loop32Go, if_pos h32]
        exact ih f' (l.drop 32) _ _ _ _ (by simp; omega) (by simp; omega)
      · simp only [buffer.loop32Go, if_neg h32]

theorem loop32_step (l : List Byte) (a b c d : Nat) (h : 32 ≤ l.length) :
    buffer.loop32 l a b c d = buffer.loop32 (l.drop 32)
      (diffuse (a ^^^ buffer.read_u64 l))
      (diffuse (b ^^^ buffer.read_u64 (l.drop 8)))
      (diffuse (c ^^^ buffer.read_u64 (l.drop 16)))
      (diffuse (d ^^^ buffer.read_u64 (l.drop 24))) := by
  obtain ⟨n, hn⟩ : ∃ n, l.length = n + 1 := ⟨l.length - 1, by omega⟩
  rw [buffer.loop32, buffer.loop32, hn]
  simp only [buffer.loop32Go, if_pos h]
  exact loop32Go_fuel n (l.drop 32).length (l.drop 32) _ _ _ _ (by simp; omega) (le_refl _)

theorem loop32_done (l : List Byte) (a b c d : Nat) (h : l.length < 32) :
    buffer.loop32 l a b c d = (a, b, c, d, l) := by
  rw [buffer.loop32]
  cases hl : l.length with
  | zero => rfl
  | succ n => simp only [buffer.loop32Go, if_neg (by omega : ¬ 32 ≤ l.length)]

/-! ### One reference write per lane, from a cursor at 0, 1, 2, 3 -/

theorem write0 (a b c d x : Nat) :
    reference.State.write_u64 ⟨[a, b, c, d], 0⟩ x =
      ⟨[diffuse (a ^^^ x), b, c, d], 1⟩ := rfl

theorem write1 (a b c d x : Nat) :
    reference.State.write_u64 ⟨[a, b, c, d], 1⟩ x =
      ⟨[a, diffuse (b ^^^ x), c, d], 2⟩ := rfl

theorem write2 (a b c d x : Nat) :
    reference.State.write_u64 ⟨[a, b, c, d], 2⟩ x =
      ⟨[a, b, diffuse (c ^^^ x), d], 3⟩ := rfl

theorem write3 (a b c d x : Nat) :
    reference.State.write_u64 ⟨[a, b, c, d], 3⟩ x =
      ⟨[a, b, c, diffuse (d ^^^ x)], 0⟩ := by
  simp [reference.State.write_u64]

/-- Reference processing of a remainder shorter than 32 bytes, from a cursor at
lane 0, gives exactly the lanes of the optimized engine's excessive-byte fold. -/
theorem tail_equiv (rem : List Byte) (a b c d : Nat) (h : rem.length < 32) :
    (reference.writeChunks ⟨[a, b, c, d], 0⟩ (chunks8 rem)).vec =
      [(buffer.excessive_fold rem a b c d).1,
       (buffer.excessive_fold rem a b c d).2.1,
       (buffer.excessive_fold rem a b c d).2.2.1,
       (buffer.excessive_fold rem a b c d).2.2.2] := by
  by_cases h0 : rem.length = 0
  · have he : rem = [] := List.length_eq_zero.mp h0
    subst he
    simp [chunks8_nil, reference.writeChunks, buffer.excessive_fold]
  have hne : rem ≠ [] := fun he => h0 (by simp [he])
  by_cases h7 : rem.length ≤ 7
  · rw [chunks8_short rem hne (by omega)]
    simp only [reference.writeChunks, List.foldl_cons, List.foldl_nil]
    rw [reference_read_int_eq rem (by omega), write0]
    simp only [buffer.excessive_fold, if_neg h0, if_pos h7]
    rw [buffer_read_int_eq rem (by omega)]
  by_cases h8 : rem.length = 8
  · rw [chunks8_short rem hne (by omega)]
    simp only [reference.writeChunks, List.foldl_cons, List.foldl_nil]
    rw [reference_read_int_eq rem (by omega), write0]
    simp only [buffer.excessive_fold, if_neg h0, if_neg h7, if_pos h8]
    have hu : buffer.read_u64 rem = leBytes rem := by
      rw [buffer.read_u64, List.take_of_length_le (by omega)]
    rw [hu]
  have hd8 : rem.drop 8 ≠ [] := fun he => by
    have := congrArg List.length he
    simp at this
    omega
  by_cases h15 : rem.length ≤ 15
  · rw [chunks8_cons rem hne, chunks8_short (rem.drop 8) hd8 (by simp; omega)]
    simp only [reference.writeChunks, List.foldl_cons, List.foldl_nil]
    rw [reference_read_int_eq (rem.take 8) (by simp),
      reference_read_int_eq (rem.drop 8) (by simp; omega), write0, write1]
    simp only [buffer.excessive_fold, if_neg h0, if_neg h7, if_neg h8, if_pos h15]
    rw [buffer_read_int_eq (rem.drop 8) (by simp; omega)]
    rfl
  by_cases h16 : rem.length = 16
  · rw [chunks8_cons rem hne, chunks8_short (rem.drop 8) hd8 (by simp; omega)]
    simp only [reference.writeChunks, List.foldl_cons, List.foldl_nil]
    rw [reference_read_int_eq (rem.take 8) (by simp),
      reference_read_int_eq (rem.drop 8) (by simp; omega), write0, write1]
    simp only [buffer.excessive_fold, if_neg h0, if_neg h7, if_neg h8, if_neg h15,
      if_pos h16]
    have hu : buffer.read_u64 (rem.drop 8) = leBytes (rem.drop 8) := by
      rw [buffer.read_u64, List.take_of_length_le (by simp; omega)]
    rw [hu]
    rfl
  have hd16 : rem.drop 16 ≠ [] := fun he => by
    have := congrArg List.length he
    simp at this
    omega
  have hdd8 : (rem.drop 8).drop 8 = rem.drop 16 := by
    rw [List.drop_drop]
  by_cases h23 : rem.length ≤ 23
  · rw [chunks8_cons rem hne, chunks8_cons (rem.drop 8) hd8, hdd8,
      chunks8_short (rem.drop 16) hd16 (by simp; omega)]
    simp only [reference.writeChunks, List.foldl_cons, List.foldl_nil]
    rw [reference_read_int_eq (rem.take 8) (by simp),
      reference_read_int_eq ((rem.drop 8).take 8) (by simp),
      reference_read_int_eq (rem.drop 16) (by simp; omega), write0, write1, write2]
    simp only [buffer.excessive_fold, if_neg h0, if_neg h7, if_neg h8, if_neg h15,
      if_neg h16, if_pos h23]
    rw [buffer_read_int_eq (rem.drop 16) (by simp; omega)]
    rfl
  by_cases h24 : rem.length = 24
  · rw [chunks8_cons rem hne, chunks8_cons (rem.drop 8) hd8, hdd8,
      chunks8_short (rem.drop 16) hd16 (by simp; omega)]
    simp only [reference.writeChunks, List.foldl_cons, List.foldl_nil]
    rw [reference_read_int_eq (rem.take 8) (by simp),
      reference_read_int_eq ((rem.drop 8).take 8) (by simp),
      reference_read_int_eq (rem.drop 16) (by simp; omega), write0, write1, write2]
    simp only [buffer.excessive_fold, if_neg h0, if_neg h7, if_neg h8, if_neg h15,
      if_neg h16, if_neg h23, if_pos h24]
    have hu : buffer.read_u64 (rem.drop 16) = leBytes (rem.drop 16) := by
      rw [buffer.read_u64, List.take_of_length_le (by simp; omega)]
    rw [hu]
    rfl
  have hd24 : rem.drop 24 ≠ [] := fun he => by
    have := congrArg List.length he
    simp at this
    omega
  have hdd16 : (rem.drop 16).drop 8 = rem.drop 24 := by
    rw [List.drop_drop]
  rw [chunks8_cons rem hne, chunks8_cons (rem.drop 8) hd8, hdd8,
    chunks8_cons (rem.drop 16) hd16, hdd16,
    chunks8_short (rem.drop 24) hd24 (by simp; omega)]
  simp only [reference.writeChunks, List.foldl_cons, List.foldl_nil]
  rw [reference_read_int_eq (rem.take 8) (by simp),
    reference_read_int_eq ((rem.drop 8).take 8) (by simp),
    reference_read_int_eq ((rem.drop 16).take 8) (by simp),
    reference_read_int_eq (rem.drop 24) (by simp; omega), write0, write1, write2, write3]
  simp only [buffer.excessive_fold, if_neg h0, if_neg h7, if_neg h8, if_neg h15,
    if_neg h16, if_neg h23, if_neg h24]
  rw [buffer_read_int_eq (rem.drop 24) (by simp; omega)]
  rfl

theorem writeChunks_nil (s : reference.State) : reference.writeChunks s [] = s := rfl

theorem writeChunks_cons (s : reference.State) (c : List Byte) (cs : List (List Byte)) :
    reference.writeChunks s (c :: cs) =
      reference.writeChunks (s.write_u64 (reference.read_int c)) cs := rfl

theorem ref_chunk_read (l : List Byte) :
    reference.read_int (l.take 8) = buffer.read_u64 l := by
  rw [buffer.read_u64]
  exact reference_read_int_eq (l.take 8) (by simp)

/-- The lanes produced by the optimized engine just before finalization:
main loop, then excessive-byte fold. -/
def optLanes (l : List Byte) (a b c d : Nat) : Nat × Nat × Nat × Nat :=
  buffer.excessive_fold (buffer.loop32 l a b c d).2.2.2.2
    (buffer.loop32 l a b c d).1 (buffer.loop32 l a b c d).2.1
    (buffer.loop32 l a b c d).2.2.1 (buffer.loop32 l a b c d).2.2.2.1

/-- Reference chunk processing from a cursor at lane 0 computes exactly the
optimized engine's lanes, for every buffer. -/
theorem main_equiv (n : Nat) : ∀ (l : List Byte), l.length ≤ n → ∀ a b c d : Nat,
    (reference.writeChunks ⟨[a, b, c, d], 0⟩ (chunks8 l)).vec =
      [(optLanes l a b c d).1, (optLanes l a b c d).2.1,
       (optLanes l a b c d).2.2.1, (optLanes l a b c d).2.2.2] := by
  induction n using Nat.strong_induction_on with
  | _ n ih =>
    intro l hl a b c d
    by_cases h32 : 32 ≤ l.length
    · have hne : l ≠ [] := fun he => by
        rw [he] at h32
        simp at h32
      have hd8 : l.drop 8 ≠ [] := fun he => by
        have := congrArg List.length he
        simp at this
        omega
      have hd16 : l.drop 16 ≠ [] := fun he => by
        have := congrArg List.length he
        simp at this
        omega
      have hd24 : l.drop 24 ≠ [] := fun he => by
        have := congrArg List.length he
        simp at this
        omega
      have hdd16 : (l.drop 8).drop 8 = l.drop 16 := by simp
      have hdd24 : (l.drop 16).drop 8 = l.drop 24 := by simp
      have hdd32 : (l.drop 24).drop 8 = l.drop 32 := by simp
      rw [chunks8_cons l hne, chunks8_cons (l.drop 8) hd8, hdd16,
        chunks8_cons (l.drop 16) hd16, hdd24, chunks8_cons (l.drop 24) hd24, hdd32]
      rw [writeChunks_cons, writeChunks_cons, writeChunks_cons, writeChunks_cons]
      rw [ref_chunk_read l, ref_chunk_read (l.drop 8), ref_chunk_read (l.drop 16),
        ref_chunk_read (l.drop 24)]
      rw [write0, write1, write2, write3]
      rw [ih (n - 32) (by omega) (l.drop 32) (by simp; omega)]
      have hopt : optLanes l a b c d =
          optLanes (l.drop 32) (diffuse (a ^^^ buffer.read_u64 l))
            (diffuse (b ^^^ buffer.read_u64 (l.drop 8)))
            (diffuse (c ^^^ buffer.read_u64 (l.drop 16)))
            (diffuse (d ^^^ buffer.read_u64 (l.drop 24))) := by
        simp only [optLanes, loop32_step l a b c d h32]
      rw [hopt]
    · have hlanes : optLanes l a b c d = buffer.excessive_fold l a b c d := by
        simp only [optLanes, loop32_done l a b c d (by omega)]
      rw [hlanes]
      exact tail_equiv l a b c d (by omega)

theorem buffer_hash_seeded_lanes (buf : List Byte) (seed : Nat) :
    buffer.hash_seeded buf seed =
      diffuse ((((optLanes buf seed 0xb480a793d8e6c86c 0x6fe2e5aaf078ebc9
          0x14f994a4c5259381).1 ^^^
        (optLanes buf seed 0xb480a793d8e6c86c 0x6fe2e5aaf078ebc9
          0x14f994a4c5259381).2.1) ^^^
        ((optLanes buf seed 0xb480a793d8e6c86c 0x6fe2e5aaf078ebc9
          0x14f994a4c5259381).2.2.1 ^^^
        (optLanes buf seed 0xb480a793d8e6c86c 0x6fe2e5aaf078ebc9
          0x14f994a4c5259381).2.2.2)) ^^^ buf.length) := by
  rcases hL : buffer.loop32 buf seed 0xb480a793d8e6c86c 0x6fe2e5aaf078ebc9
    0x14f994a4c5259381 with ⟨a', b', c', d', rem⟩
  rcases hE : buffer.excessive_fold rem a' b' c' d' with ⟨A, B, C, D⟩
  simp [buffer.hash_seeded, optLanes, hL, hE]

theorem hash_seeded_agree (buf : List Byte) (seed : Nat) :
    buffer.hash_seeded buf seed = reference.hash_seeded buf seed := by
  rw [reference.hash_seeded]
  have hws : reference.State.with_seed seed =
      ⟨[seed, 0xb480a793d8e6c86c, 0x6fe2e5aaf078ebc9, 0x14f994a4c5259381], 0⟩ := rfl
  rw [hws, buffer_hash_seeded_lanes]
  rw [reference.State.finish]
  rw [main_equiv buf.length buf (le_refl _) seed 0xb480a793d8e6c86c
    0x6fe2e5aaf078ebc9 0x14f994a4c5259381]
  simp only [List.getD_cons_zero, List.getD_cons_succ]
  congr 1
  simp [Nat.xor_assoc]

/-! ### The little-endian value as a positional sum -/

theorem leBytes_eq_sum (l : List Byte) :
    leBytes l = ∑ i ∈ Finset.range l.length, (l.getD i 0).val * 256 ^ i := by
  induction l with
  | nil => simp [leBytes]
  | cons b t ih =>
    rw [leBytes_cons, ih, List.length_cons, Finset.sum_range_succ']
    simp only [List.getD_cons_succ, List.getD_cons_zero, pow_zero, mul_one, pow_succ]
    rw [Finset.mul_sum, add_comm]
    congr 1
    apply Finset.sum_congr rfl
    intro i _
    ring

/-! ### Range of the diffusion primitive -/

theorem jmul_lt (x : Nat) : jmul x < 2 ^ 64 := Nat.mod_lt _ (by norm_num)

theorem diffuse_lt (x : Nat) : diffuse x < 2 ^ 64 := by
  rw [diffuse, hshift, Nat.shiftRight_eq_div_pow]
  exact lt_of_le_of_lt (Nat.div_le_self _ _) (jmul_lt _)

/-! ### The spec's description of the reference engine (for the refinement
claim): four lanes addressed through a rotating cursor `Fin 4`, each chunk read
as the zero-padded little-endian positional sum. -/

/-- The spec's reading of a chunk: the little-endian unsigned integer, a short
final chunk treated as zero-padded on the high end. -/
def specChunkVal (c : List Byte) : Nat :=
  ∑ i ∈ Finset.range c.length, (c.getD i 0).val * 256 ^ i

/-- The spec's chunk loop: XOR the chunk value into the lane at the cursor,
replace that lane with its diffusion, advance the cursor by one modulo 4. -/
def specFold : List (List Byte) → (Fin 4 → Nat) → Fin 4 → (Fin 4 → Nat)
  | [], v, _ => v
  | c :: cs, v, cur =>
      specFold cs (Function.update v cur (diffuse (v cur ^^^ specChunkVal c))) (cur + 1)

/-- The spec's initial lanes: the seed, then three fixed constants. -/
def specInit (seed : Nat) : Fin 4 → Nat := fun i =>
  if i = 0 then seed
  else if i = 1 then 0xb480a793d8e6c86c
  else if i = 2 then 0x6fe2e5aaf078ebc9
  else 0x14f994a4c5259381

/-- The computation claimed by the spec for the reference engine: lanes
`(seed, 0xb480a793d8e6c86c, 0x6fe2e5aaf078ebc9, 0x14f994a4c5259381)` with the
cursor at 0, one rotating fold step per chunk of up to 8 bytes, then
`diffuse (lane0 XOR lane1 XOR lane2 XOR lane3 XOR length)`. -/
def specRotatingHash (buf : List Byte) (seed : Nat) : Nat :=
  diffuse ((((specFold (chunks8 buf) (specInit seed) 0 0 ^^^
    specFold (chunks8 buf) (specInit seed) 0 1) ^^^
    specFold (chunks8 buf) (specInit seed) 0 2) ^^^
    specFold (chunks8 buf) (specInit seed) 0 3) ^^^ buf.length)

theorem read_int_eq_specChunkVal (c : List Byte) (h : c.length ≤ 8) :
    reference.read_int c = specChunkVal c := by
  rw [reference_read_int_eq c h, leBytes_eq_sum, specChunkVal]

theorem chunks8_length_le (n : Nat) : ∀ (l : List Byte), l.length ≤ n →
    ∀ c ∈ chunks8 l, c.length ≤ 8 := by
  induction n using Nat.strong_induction_on with
  | _ n ih =>
    intro l hl c hc
    by_cases he : l = []
    · subst he
      simp [chunks8_nil] at hc
    · rw [chunks8_cons l he, List.mem_cons] at hc
      have hn : 0 < l.length := by
        rcases l with _ | ⟨x, t⟩
        · exact absurd rfl he
        · simp
      rcases hc with hc | hc
      · rw [hc]
        simp [List.length_take]
      · exact ih (n - 1) (by omega) (l.drop 8) (by simp; omega) c hc

theorem specFold_writeChunks (cs : List (List Byte)) : ∀ (v : Fin 4 → Nat) (cur : Fin 4),
    (∀ c ∈ cs, c.length ≤ 8) →
    (reference.writeChunks ⟨[v 0, v 1, v 2, v 3], cur.val⟩ cs).vec =
      [specFold cs v cur 0, specFold cs v cur 1, specFold cs v cur 2,
       specFold cs v cur 3] := by
  induction cs with
  | nil =>
    intro v cur h
    rfl
  | cons c cs ih =>
    intro v cur h
    rw [writeChunks_cons, read_int_eq_specChunkVal c (h c (by simp))]
    have htail : ∀ c' ∈ cs, c'.length ≤ 8 := fun c' hc' => h c' (by simp [hc'])
    fin_cases cur
    · exact ih (Function.update v 0 (diffuse (v 0 ^^^ specChunkVal c))) 1 htail
    · exact ih (Function.update v 1 (diffuse (v 1 ^^^ specChunkVal c))) 2 htail
    · exact ih (Function.update v 2 (diffuse (v 2 ^^^ specChunkVal c))) 3 htail
    · show (reference.writeChunks
          (reference.State.write_u64 ⟨[v 0, v 1, v 2, v 3], 3⟩ (specChunkVal c)) cs).vec =
        [specFold (c :: cs) v 3 0, specFold (c :: cs) v 3 1, specFold (c :: cs) v 3 2,
         specFold (c :: cs) v 3 3]
      have hv : reference.State.write_u64 ⟨[v 0, v 1, v 2, v 3], (3 : Nat)⟩
          (specChunkVal c) =
          ⟨[v 0, v 1, v 2, diffuse (v 3 ^^^ specChunkVal c)], 0⟩ := by
        simp [reference.State.write_u64]
      rw [hv]
      simp only [specFold]
      rw [show ((3 : Fin 4) + 1) = (0 : Fin 4) from by decide]
      exact ih (Function.update v 3 (diffuse (v 3 ^^^ specChunkVal c))) 0 htail

theorem ref_eq_specRotatingHash (buf : List Byte) (seed : Nat) :
    reference.hash_seeded buf seed = specRotatingHash buf seed := by
  rw [reference.hash_seeded, specRotatingHash, reference.State.finish]
  have hws : reference.State.with_seed seed =
      ⟨[specInit seed 0, specInit seed 1, specInit seed 2, specInit seed 3],
        (0 : Fin 4).val⟩ := by
    simp [reference.State.with_seed, specInit]
  rw [hws, specFold_writeChunks (chunks8 buf) (specInit seed) 0
    (chunks8_length_le buf.length buf (le_refl _))]
  simp only [List.getD_cons_zero, List.getD_cons_succ]

/-! ### Splitting an 8-byte read into two 4-byte halves -/

theorem take8_split (l : List Byte) : l.take 8 = l.take 4 ++ (l.drop 4).take 4 := by
  have h1 : (l.take 8).take 4 = l.take 4 := by
    rw [List.take_take]
    norm_num
  have h2 : (l.take 8).drop 4 = (l.drop 4).take 4 := by
    rw [List.take_drop]
  calc l.take 8 = (l.take 8).take 4 ++ (l.take 8).drop 4 :=
        (List.take_append_drop 4 (l.take 8)).symm
    _ = l.take 4 ++ (l.drop 4).take 4 := by rw [h1, h2]

/-! ### Hashing the empty buffer -/

theorem buffer_hash_empty (seed : Nat) :
    buffer.hash_seeded [] seed =
      diffuse (seed ^^^ 0xb480a793d8e6c86c ^^^ 0x6fe2e5aaf078ebc9 ^^^
        0x14f994a4c5259381) := by
  show diffuse (((seed ^^^ 0xb480a793d8e6c86c) ^^^
      (0x6fe2e5aaf078ebc9 ^^^ 0x14f994a4c5259381)) ^^^ (0 : Nat)) = _
  rw [Nat.xor_zero, ← Nat.xor_assoc]

theorem reference_hash_empty (seed : Nat) :
    reference.hash_seeded [] seed =
      diffuse (seed ^^^ 0xb480a793d8e6c86c ^^^ 0x6fe2e5aaf078ebc9 ^^^
        0x14f994a4c5259381) := by
  show diffuse ((((seed ^^^ 0xb480a793d8e6c86c) ^^^ 0x6fe2e5aaf078ebc9) ^^^
      0x14f994a4c5259381) ^^^ (0 : Nat)) = _
  rw [Nat.xor_zero]

/-- The bytes of the ASCII string of the spec's default-seed scenario. -/
def toBeBuf : List Byte :=
  [116, 111, 32, 98, 101, 32, 111, 114, 32, 110, 111, 116, 32, 116, 111, 32, 98, 101]

/-! ### The claims -/

/-- Claim C1: for every finite byte buffer and every 64-bit seed, the optimized
engine's `hash_seeded` (buffer.rs) and the reference engine's `hash_seeded`
(reference.rs) return the same 64-bit value; likewise their unseeded `hash`
functions agree on every buffer. -/
theorem claim_C1 (buf : List Byte) (seed : Nat) :
    buffer.hash_seeded buf seed = reference.hash_seeded buf seed ∧
    buffer.hash buf = reference.hash buf :=
  ⟨hash_seeded_agree buf seed, hash_seeded_agree buf 0x16f11fe89b0d677c⟩

/-- Claim C2: the reference engine's `hash_seeded` equals the spec's rotating
computation: lanes `(seed, 0xb480a793d8e6c86c, 0x6fe2e5aaf078ebc9,
0x14f994a4c5259381)` with the cursor at 0; for each chunk of up to 8 bytes, the
zero-padded little-endian chunk value is XORed into the lane at the cursor,
that lane is replaced by its diffusion and the cursor advances modulo 4;
finally `diffuse (lane0 XOR lane1 XOR lane2 XOR lane3 XOR length)`. -/
theorem claim_C2 (buf : List Byte) (seed : Nat) :
    reference.hash_seeded buf seed = specRotatingHash buf seed :=
  ref_eq_specRotatingHash buf seed

/-- Claim C3: the optimized engine's excessive-byte fold continues the
`a`, `b`, `c`, `d` rotation starting at lane `a` — nothing for remainder 0, one
short read into `a` for 1 to 7, a full read into `a` for 8, and so on up to
three full reads and a short read into `d` for 25 to 31 — and this equals the
reference engine's chunk-by-chunk processing of the same remainder. -/
theorem claim_C3 (rem : List Byte) (a b c d : Nat) (h : rem.length < 32) :
    ((reference.writeChunks ⟨[a, b, c, d], 0⟩ (chunks8 rem)).vec =
      [(buffer.excessive_fold rem a b c d).1,
       (buffer.excessive_fold rem a b c d).2.1,
       (buffer.excessive_fold rem a b c d).2.2.1,
       (buffer.excessive_fold rem a b c d).2.2.2]) ∧
    (rem.length = 0 → buffer.excessive_fold rem a b c d = (a, b, c, d)) ∧
    (1 ≤ rem.length → rem.length ≤ 7 →
      buffer.excessive_fold rem a b c d =
        (diffuse (a ^^^ buffer.read_int rem), b, c, d)) ∧
    (rem.length = 8 →
      buffer.excessive_fold rem a b c d =
        (diffuse (a ^^^ buffer.read_u64 rem), b, c, d)) ∧
    (9 ≤ rem.length → rem.length ≤ 15 →
      buffer.excessive_fold rem a b c d =
        (diffuse (a ^^^ buffer.read_u64 rem),
         diffuse (b ^^^ buffer.read_int (rem.drop 8)), c, d)) ∧
    (rem.length = 16 →
      buffer.excessive_fold rem a b c d =
        (diffuse (a ^^^ buffer.read_u64 rem),
         diffuse (b ^^^ buffer.read_u64 (rem.drop 8)), c, d)) ∧
    (17 ≤ rem.length → rem.length ≤ 23 →
      buffer.excessive_fold rem a b c d =
        (diffuse (a ^^^ buffer.read_u64 rem),
         diffuse (b ^^^ buffer.read_u64 (rem.drop 8)),
         diffuse (c ^^^ buffer.read_int (rem.drop 16)), d)) ∧
    (rem.length = 24 →
      buffer.excessive_fold rem a b c d =
        (diffuse (a ^^^ buffer.read_u64 rem),
         diffuse (b ^^^ buffer.read_u64 (rem.drop 8)),
         diffuse (c ^^^ buffer.read_u64 (rem.drop 16)), d)) ∧
    (25 ≤ rem.length →
      buffer.excessive_fold rem a b c d =
        (diffuse (a ^^^ buffer.read_u64 rem),
         diffuse (b ^^^ buffer.read_u64 (rem.drop 8)),
         diffuse (c ^^^ buffer.read_u64 (rem.drop 16)),
         diffuse (d ^^^ buffer.read_int (rem.drop 24)))) := by
  refine ⟨tail_equiv rem a b c d h, ?_, ?_, ?_, ?_, ?_, ?_, ?_, ?_⟩
  · intro h0
    simp only [buffer.excessive_fold, if_pos h0]
  · intro h1 h7
    simp only [buffer.excessive_fold, if_neg (by omega : ¬ rem.length = 0), if_pos h7]
  · intro h8
    simp only [buffer.excessive_fold, if_neg (by omega : ¬ rem.length = 0),
      if_neg (by omega : ¬ rem.length ≤ 7), if_pos h8]
  · intro h9 h15
    simp only [buffer.excessive_fold, if_neg (by omega : ¬ rem.length = 0),
      if_neg (by omega : ¬ rem.length ≤ 7), if_neg (by omega : ¬ rem.length = 8),
      if_pos h15]
  · intro h16
    simp only [buffer.excessive_fold, if_neg (by omega : ¬ rem.length = 0),
      if_neg (by omega : ¬ rem.length ≤ 7), if_neg (by omega : ¬ rem.length = 8),
      if_neg (by omega : ¬ rem.length ≤ 15), if_pos h16]
  · intro h17 h23
    simp only [buffer.excessive_fold, if_neg (by omega : ¬ rem.length = 0),
      if_neg (by omega : ¬ rem.length ≤ 7), if_neg (by omega : ¬ rem.length = 8),
      if_neg (by omega : ¬ rem.length ≤ 15), if_neg (by omega : ¬ rem.length = 16),
      if_pos h23]
  · intro h24
    simp only [buffer.excessive_fold, if_neg (by omega : ¬ rem.length = 0),
      if_neg (by omega : ¬ rem.length ≤ 7), if_neg (by omega : ¬ rem.length = 8),
      if_neg (by omega : ¬ rem.length ≤ 15), if_neg (by omega : ¬ rem.length = 16),
      if_neg (by omega : ¬ rem.length ≤ 23), if_pos h24]
  · intro h25
    simp only [buffer.excessive_fold, if_neg (by omega : ¬ rem.length = 0),
      if_neg (by omega : ¬ rem.length ≤ 7), if_neg (by omega : ¬ rem.length = 8),
      if_neg (by omega : ¬ rem.length ≤ 15), if_neg (by omega : ¬ rem.length = 16),
      if_neg (by omega : ¬ rem.length ≤ 23), if_neg (by omega : ¬ rem.length = 24)]

/-- Claim C3 witness: the equivalence at the concrete remainder `[1, 2, 3]` and
lanes `5, 6, 7, 8`. -/
theorem claim_C3_witness :
    (reference.writeChunks ⟨[5, 6, 7, 8], 0⟩ (chunks8 [1, 2, 3])).vec =
      [(buffer.excessive_fold [1, 2, 3] 5 6 7 8).1,
       (buffer.excessive_fold [1, 2, 3] 5 6 7 8).2.1,
       (buffer.excessive_fold [1, 2, 3] 5 6 7 8).2.2.1,
       (buffer.excessive_fold [1, 2, 3] 5 6 7 8).2.2.2] :=
  (claim_C3 [1, 2, 3] 5 6 7 8 (by decide)).1

/-- Claim C4: the diffusion primitive is the pure function
`g(x) = h(j(h(j(x))))` with `h(x) = x >> 32` (division by `2^32`) and
`j(x) = (p * x) mod 2^64` for the fixed odd constant `p = 0x7ed0e9fa0d94a33`,
the multiplication wrapping silently, and its result fits in 64 bits. -/
theorem claim_C4 (x : Nat) :
    diffuse x = hshift (jmul (hshift (jmul x))) ∧
    jmul x = (0x7ed0e9fa0d94a33 * x) % 2 ^ 64 ∧
    hshift x = x / 2 ^ 32 ∧
    0x7ed0e9fa0d94a33 % 2 = 1 ∧
    diffuse x < 2 ^ 64 :=
  ⟨rfl, rfl, by rw [hshift, Nat.shiftRight_eq_div_pow], by norm_num, diffuse_lt x⟩

/-- Claim C5: both engines are total on every buffer (including the empty
buffer and lengths that are not multiples of 8 or 32) and every seed, and
always produce a value below `2^64`; in the embedding every read is through
`List.take`/`List.drop`/`List.getD`, hence within bounds. -/
theorem claim_C5 (buf : List Byte) (seed : Nat) :
    buffer.hash_seeded buf seed < 2 ^ 64 ∧
    reference.hash_seeded buf seed < 2 ^ 64 := by
  constructor
  · rw [buffer_hash_seeded_lanes]
    exact diffuse_lt _
  · rw [reference.hash_seeded, reference.State.finish]
    exact diffuse_lt _

/-- Claim C6: in both engines the unseeded entry point equals `hash_seeded`
with the fixed seed `0x16f11fe89b0d677c`, in particular on the buffer
`b"to be or not to be"`. -/
theorem claim_C6 :
    (∀ buf : List Byte,
      buffer.hash buf = buffer.hash_seeded buf 0x16f11fe89b0d677c ∧
      reference.hash buf = reference.hash_seeded buf 0x16f11fe89b0d677c) ∧
    buffer.hash toBeBuf = buffer.hash_seeded toBeBuf 0x16f11fe89b0d677c ∧
    reference.hash toBeBuf = reference.hash_seeded toBeBuf 0x16f11fe89b0d677c :=
  ⟨fun _ => ⟨rfl, rfl⟩, rfl, rfl⟩

/-- Claim C7: inserting or appending a zero byte changes the hash on the
spec's listed inputs, in both engines. -/
theorem claim_C7 :
    buffer.hash [1, 2, 3, 4] ≠ buffer.hash [1, 0, 2, 3, 4] ∧
    buffer.hash [1, 2, 3, 4] ≠ buffer.hash [1, 2, 3, 4, 0] ∧
    buffer.hash [0, 0, 0] ≠ buffer.hash [0, 0, 0, 0, 0] ∧
    reference.hash [1, 2, 3, 4] ≠ reference.hash [1, 0, 2, 3, 4] ∧
    reference.hash [1, 2, 3, 4] ≠ reference.hash [1, 2, 3, 4, 0] ∧
    reference.hash [0, 0, 0] ≠ reference.hash [0, 0, 0, 0, 0] :=
  ⟨by decide, by decide, by decide, by decide, by decide, by decide⟩

/-- Claim C8: hashing the empty buffer skips all folding and finalizes on the
untouched initial lanes XORed with length 0, in both engines:
`hash_seeded [] seed = diffuse (seed XOR 0xb480a793d8e6c86c XOR
0x6fe2e5aaf078ebc9 XOR 0x14f994a4c5259381)`. -/
theorem claim_C8 (seed : Nat) :
    buffer.hash_seeded [] seed =
      diffuse (seed ^^^ 0xb480a793d8e6c86c ^^^ 0x6fe2e5aaf078ebc9 ^^^
        0x14f994a4c5259381) ∧
    reference.hash_seeded [] seed =
      diffuse (seed ^^^ 0xb480a793d8e6c86c ^^^ 0x6fe2e5aaf078ebc9 ^^^
        0x14f994a4c5259381) :=
  ⟨buffer_hash_empty seed, reference_hash_empty seed⟩

/-- Claim C9: in the 32-bit pointer-width branch of the optimized `read_u64`,
the value is `w ||| (w <<< 32)` for `w` the little-endian `u32` at the pointer,
the value depends only on the first 4 bytes (offsets 4 through 7 are never
read), and it equals the true little-endian 64-bit integer exactly when the two
4-byte halves are equal. -/
theorem claim_C9 (l : List Byte) (h : 8 ≤ l.length) :
    buffer.read_u64_32bit l =
      (leBytes (l.take 4)) ||| ((leBytes (l.take 4)) <<< 32) ∧
    (∀ l' : List Byte, l.take 4 = l'.take 4 →
      buffer.read_u64_32bit l = buffer.read_u64_32bit l') ∧
    (buffer.read_u64_32bit l = leBytes (l.take 8) ↔
      leBytes (l.take 4) = leBytes ((l.drop 4).take 4)) := by
  have h4 : (l.take 4).length = 4 := by
    simp
    omega
  have hlt : leBytes (l.take 4) < 2 ^ 32 := by
    simpa [h4] using leBytes_lt (l.take 4)
  refine ⟨rfl, fun l' he => by rw [buffer.read_u64_32bit, buffer.read_u64_32bit, he], ?_⟩
  have h4' : ((l.drop 4).take 4).length = 4 := by
    simp
    omega
  have hlt2 : leBytes ((l.drop 4).take 4) < 2 ^ 32 := by
    simpa [h4'] using leBytes_lt ((l.drop 4).take 4)
  rw [buffer.read_u64_32bit, lor_eq_add_shiftLeft (leBytes (l.take 4)) 32 hlt,
    take8_split l, leBytes_append, h4]
  constructor
  · intro he
    norm_num at he
    omega
  · intro he
    rw [he]

/-- Claim C9 witness: the 32-bit branch at the concrete 8-byte buffer
`[1, 2, 3, 4, 5, 6, 7, 8]`. -/
theorem claim_C9_witness :
    buffer.read_u64_32bit [1, 2, 3, 4, 5, 6, 7, 8] =
      (leBytes (([1, 2, 3, 4, 5, 6, 7, 8] : List Byte).take 4)) |||
      ((leBytes (([1, 2, 3, 4, 5, 6, 7, 8] : List Byte).take 4)) <<< 32) :=
  (claim_C9 [1, 2, 3, 4, 5, 6, 7, 8] (by decide)).1

/-- Claim C10: for buffers of length 1 through 7 the optimized `read_int` and
the reference `read_int` agree and compute the little-endian positional sum;
the reference `read_int` computes that sum for all lengths up to 8, and the
optimized `read_int` returns 0 on the empty buffer. -/
theorem claim_C10 (s : List Byte) :
    (1 ≤ s.length → s.length ≤ 7 →
      buffer.read_int s = reference.read_int s ∧
      buffer.read_int s = ∑ i ∈ Finset.range s.length, (s.getD i 0).val * 256 ^ i) ∧
    (s.length ≤ 8 →
      reference.read_int s = ∑ i ∈ Finset.range s.length, (s.getD i 0).val * 256 ^ i) ∧
    (s.length = 0 → buffer.read_int s = 0) := by
  refine ⟨fun h1 h7 => ⟨?_, ?_⟩, fun h8 => ?_, fun h0 => ?_⟩
  · rw [buffer_read_int_eq s h7, reference_read_int_eq s (by omega)]
  · rw [buffer_read_int_eq s h7, leBytes_eq_sum]
  · rw [reference_read_int_eq s h8, leBytes_eq_sum]
  · have he : s = [] := List.length_eq_zero.mp h0
    subst he
    rfl

/-- Claim C10 witness: the agreement at the concrete two-byte buffer `[3, 5]`. -/
theorem claim_C10_witness :
    buffer.read_int [3, 5] = reference.read_int [3, 5] :=
  ((claim_C10 [3, 5]).1 (by decide) (by decide)).1
